import Mathlib

/-!
Verification of the devdonalds cookbook server (backend/py_template/devdonalds.py).

The Python program keeps two module-level dictionaries, `cookbook` (registry of
ingredients and recipes) and `recipe_ingredient_cache` (memoized resolutions),
and exposes four endpoints: `/parse` (name normalization via
`parse_handwriting`), `/entry` (`create_entry`, with helpers `create_receipe`
and `create_ingredient`), `/summary` (`summary`, with the recursive resolver
`recursive_summary`), and `/clear` (`clear`).

Python dictionaries are modelled as association lists with first-match lookup
and in-place update (`dget` / `dset`), preserving insertion order exactly as
CPython dicts do.  Python exceptions (KeyError, IndexError, UnboundLocalError,
AttributeError) are modelled by explicit `crash` result constructors.  The
recursion of `recursive_summary` is made total with a fuel parameter; the
`nofuel` constructor marks fuel exhaustion and is distinct from every
behaviour of the source program.
-/

namespace DevDonalds

/-- Python dict lookup `d.get(k)` / `d[k]` on an insertion-ordered
association list: first (and by key-uniqueness only) matching value. -/
def dget {α : Type} : List (String × α) → String → Option α
  | [], _ => none
  | (k, v) :: rest, key => if k = key then some v else dget rest key

/-- Python dict store `d[k] = v`: update in place if the key is present,
otherwise append at the end (CPython insertion order). -/
def dset {α : Type} : List (String × α) → String → α → List (String × α)
  | [], key, val => [(key, val)]
  | (k, v) :: rest, key, val =>
    if k = key then (key, val) :: rest else (k, v) :: dset rest key val

/-- `RequiredItem` dataclass: an edge of the dependency graph. -/
structure RequiredItem where
  name : String
  quantity : Int
deriving DecidableEq

/-- The two `CookbookEntry` dataclasses stored in the cookbook:
`Ingredient(name, cook_time)` and `Recipe(name, required_items)`. -/
inductive Entry where
  | ingredient (name : String) (cook_time : Int)
  | recipe (name : String) (required_items : List RequiredItem)
deriving DecidableEq

/-- The `name` field shared by both `CookbookEntry` dataclasses. -/
def entryName : Entry → String
  | .ingredient n _ => n
  | .recipe n _ => n

/-- The module-level `cookbook` dict: entry name to entry. -/
abbrev Cookbook := List (String × Entry)

/-- An ingredient-frequency dict: ingredient name to total quantity. -/
abbrev Freq := List (String × Int)

/-- The module-level `recipe_ingredient_cache` dict: recipe name to its
resolved ingredient-frequency dict. -/
abbrev Cache := List (String × Freq)

/-- The `curr_path` set of recipe names on the current resolution stack.
Names are inserted only after a membership test, so the list never holds
duplicates and models the Python set faithfully. -/
abbrev Path := List String

/-- Outcome of the `/entry` endpoint: `(message, 200)`, `(message, 400)`,
or an uncaught Python exception. -/
inductive CreateResult where
  | ok (msg : String)
  | err (msg : String)
  | crash
deriving DecidableEq

/-- The JSON body consumed by `create_entry`: `data.get('type')`,
`data.get('name')`, `data.get('requiredItems')`, `data.get('cookTime')`. -/
structure ReqData where
  type : String
  name : String
  requiredItems : List RequiredItem
  cookTime : Int

/-- The `for item in data.get('requiredItems')` loop of `create_receipe`,
threading the `item_names` set, the accumulated `required_items` list and the
last value of the loop variable `item_name`.  After the loop the source builds
`Recipe(name=item_name, ...)`: when the loop body never ran, `item_name` is an
unbound local and Python raises UnboundLocalError (`crash`); otherwise the
recipe is stored under key `name` but carries the *last item's* name. -/
def create_receipe_go (cookbook : Cookbook) (name : String) :
    List RequiredItem → List String → List RequiredItem → Option String →
    CreateResult × Cookbook
  | [], _, _, none => (.crash, cookbook)
  | [], _, acc, some item_name =>
    (.ok "recipe added", dset cookbook name (.recipe item_name acc))
  | item :: rest, item_names, acc, _ =>
    if item.name ∈ item_names then
      (.err "can only have one element per name", cookbook)
    else if item.quantity < 0 then
      (.err "invalid quantity", cookbook)
    else
      create_receipe_go cookbook name rest (item.name :: item_names)
        (acc ++ [⟨item.name, item.quantity⟩]) (some item.name)

/-- `create_receipe(data, name)`. -/
def create_receipe (cookbook : Cookbook) (data : ReqData) (name : String) :
    CreateResult × Cookbook :=
  create_receipe_go cookbook name data.requiredItems [] [] none

/-- `create_ingredient(data, name)`. -/
def create_ingredient (cookbook : Cookbook) (data : ReqData) (name : String) :
    CreateResult × Cookbook :=
  if data.cookTime < 0 then (.err "invalid cook time", cookbook)
  else (.ok "ingredient added", dset cookbook name (.ingredient name data.cookTime))

/-- The `/entry` endpoint `create_entry`. -/
def create_entry (cookbook : Cookbook) (data : ReqData) : CreateResult × Cookbook :=
  if (dget cookbook data.name).isSome then
    (.err "name of the entry must be unique", cookbook)
  else if data.type = "recipe" then create_receipe cookbook data data.name
  else if data.type = "ingredient" then create_ingredient cookbook data data.name
  else (.err "invalid type", cookbook)

/-- Outcome of one `recursive_summary` call: `(freq, 200)`, `(message, 400)`,
an uncaught Python exception, or fuel exhaustion (a model artifact only). -/
inductive RSResult where
  | ok (freq : Freq)
  | err (msg : String)
  | crash
  | nofuel
deriving DecidableEq

/-- The `for k, v in child_recipe.items()` aggregation loop: add
`item.quantity * v` into the parent's accumulator, creating absent keys. -/
def mergeChild (freq : Freq) (quantity : Int) (child : Freq) : Freq :=
  child.foldl
    (fun acc kv =>
      match dget acc kv.1 with
      | some old => dset acc kv.1 (old + quantity * kv.2)
      | none => dset acc kv.1 (quantity * kv.2))
    freq

/-- The `for item in cookbook[name].required_items` loop of
`recursive_summary`, threading the accumulator `ingredient_freq`, the mutable
`curr_path` set and the mutable `recipe_ingredient_cache`.  The recursive call
is abstracted as `recur` (instantiated with `recursive_summary` at one less
fuel). -/
def rsLoop (cb : Cookbook)
    (recur : String → Path → Cache → RSResult × Path × Cache) :
    List RequiredItem → Freq → Path → Cache → RSResult × Path × Cache
  | [], freq, path, cache => (.ok freq, path, cache)
  | item :: rest, freq, path, cache =>
    match dget cb item.name with
    | none => (.err "item does not exist in cookbook", path, cache)
    | some (.ingredient _ _) =>
      rsLoop cb recur rest (dset freq item.name item.quantity) path cache
    | some (.recipe _ _) =>
      match recur item.name path cache with
      | (.ok child, path2, cache2) =>
        rsLoop cb recur rest (mergeChild freq item.quantity child) path2 cache2
      | (r, path2, cache2) => (r, path2, cache2)

/-- `recursive_summary(name, curr_path)`: cache hit, cycle check on
`curr_path`, then the item loop; on success the result is committed to the
cache and the name removed from the path; any error from the loop is
propagated unchanged (leaving the name on the path and the cache as the loop
left it).  A name that is neither cached nor a recipe in the cookbook makes
the source raise (KeyError / AttributeError): `crash`. -/
def recursive_summary (cb : Cookbook) : Nat → String → Path → Cache →
    RSResult × Path × Cache
  | 0 => fun _ path cache => (.nofuel, path, cache)
  | fuel + 1 => fun name path cache =>
    match dget cache name with
    | some freq => (.ok freq, path, cache)
    | none =>
      if name ∈ path then (.err "ciruclar dependencies of recipes", path, cache)
      else
        match dget cb name with
        | some (.recipe _ items) =>
          (match rsLoop cb (recursive_summary cb fuel) items [] (name :: path) cache with
           | (.ok freq, path2, cache2) =>
             (.ok freq, path2.erase name, dset cache2 name freq)
           | (r, path2, cache2) => (r, path2, cache2))
        | _ => (.crash, name :: path, cache)

/-- Outcome of the `/summary` endpoint. -/
inductive SummaryResult where
  | ok (name : String) (cookTime : Int) (ingredients : List (String × Int))
  | err (msg : String)
  | crash
  | nofuel
deriving DecidableEq

/-- The `cook_time += cookbook[k].cook_time * v` loop of `summary`; a key
that is missing or names a recipe would raise in Python (`none`). -/
def cook_time_of (cb : Cookbook) : List (String × Int) → Int → Option Int
  | [], acc => some acc
  | (k, v) :: rest, acc =>
    match dget cb k with
    | some (.ingredient _ ct) => cook_time_of cb rest (acc + ct * v)
    | _ => none

/-- The module-level mutable state: the `cookbook` dict and the
`recipe_ingredient_cache` dict. -/
structure ServerState where
  cookbook : Cookbook
  cache : Cache
deriving DecidableEq

/-- The `/entry` endpoint as a state transformer.  Its body never mentions
`recipe_ingredient_cache`, so the cache component is passed through. -/
def create_entry_ep (st : ServerState) (data : ReqData) : CreateResult × ServerState :=
  ((create_entry st.cookbook data).1,
   ⟨(create_entry st.cookbook data).2, st.cache⟩)

/-- Fuel that strictly dominates any resolution depth: the call stack of
`recursive_summary` only grows through names freshly added to `curr_path`,
all of which are cookbook keys, so the depth is at most the cookbook size. -/
def summaryFuel (cb : Cookbook) : Nat := cb.length + 1

/-- The `/summary` endpoint `summary`: NotFound check, WrongType check, then
`recursive_summary` with a fresh empty `curr_path`; on success project the
frequency dict into the response list and total the cook time. -/
def summary_ep (st : ServerState) (name : String) : SummaryResult × ServerState :=
  match dget st.cookbook name with
  | none => (.err "name not found in cook book", st)
  | some (.ingredient _ _) => (.err "type is not a recipe", st)
  | some (.recipe _ _) =>
    match recursive_summary st.cookbook (summaryFuel st.cookbook) name [] st.cache with
    | (.ok freq, _, cache2) =>
      (match cook_time_of st.cookbook freq 0 with
       | some ct => (.ok name ct freq, ⟨st.cookbook, cache2⟩)
       | none => (.crash, ⟨st.cookbook, cache2⟩))
    | (.err m, _, cache2) => (.err m, ⟨st.cookbook, cache2⟩)
    | (.crash, _, cache2) => (.crash, ⟨st.cookbook, cache2⟩)
    | (.nofuel, _, cache2) => (.nofuel, ⟨st.cookbook, cache2⟩)

/-- The `/clear` endpoint: `cookbook.clear()` and
`recipe_ingredient_cache.clear()`. -/
def clear_ep (_st : ServerState) : String × ServerState :=
  ("clear cookbook success", ⟨[], []⟩)

/-- A character of the regex class `[- _]`, the delimiters of
`re.split(r'[- _]+', recipe_name)` (code points 45, 32, 95). -/
def isDelim (c : Char) : Bool := c.toNat == 45 || c.toNat == 32 || c.toNat == 95

/-- A character kept by `re.sub(r'[^a-zA-Z_-]', '', name)`: an ASCII letter,
underscore or hyphen. -/
def isKeep (c : Char) : Bool :=
  (65 ≤ c.toNat && c.toNat ≤ 90) || (97 ≤ c.toNat && c.toNat ≤ 122) ||
  c.toNat == 95 || c.toNat == 45

/-- Python `str.upper()` on one character drawn from `[a-zA-Z_-]`:
lower-case ASCII letters move down 32 code points, the rest is unchanged. -/
def pyUpper (c : Char) : Char :=
  if 97 ≤ c.toNat && c.toNat ≤ 122 then Char.ofNat (c.toNat - 32) else c

/-- Python `str.lower()` on one character drawn from `[a-zA-Z_-]`:
upper-case ASCII letters move up 32 code points, the rest is unchanged. -/
def pyLower (c : Char) : Char :=
  if 65 ≤ c.toNat && c.toNat ≤ 90 then Char.ofNat (c.toNat + 32) else c

/-- Worker for `re.split(r'[- _]+', s)`: splits at maximal delimiter runs,
producing an empty leading token when the string starts with a delimiter and
an empty trailing token when it ends with one, exactly like `re.split`. -/
def srAux : List Char → List Char → List (List Char)
  | [], acc => [acc.reverse]
  | c :: rest, acc =>
    if isDelim c then
      match rest with
      | [] => [acc.reverse, []]
      | d :: rest' =>
        if isDelim d then srAux (d :: rest') acc
        else acc.reverse :: srAux (d :: rest') []
    else srAux rest (c :: acc)

/-- `re.split(r'[- _]+', s)`. -/
def splitRuns (l : List Char) : List (List Char) := srAux l []

/-- Outcome of `parse_handwriting`: a string, `None`, or an uncaught
IndexError. -/
inductive PHResult where
  | ok (s : String)
  | invalid
  | crash
deriving DecidableEq

/-- The `for name in original_names` loop: strip each token with
`re.sub(r'[^a-zA-Z_-]', '', name)`, then evaluate
`new_name[0].upper() + new_name[1:].lower()`.  When the stripped token is
empty, `new_name[0]` raises IndexError (`none`). -/
def phLoop : List (List Char) → Option (List (List Char))
  | [] => some []
  | t :: ts =>
    match t.filter isKeep with
    | [] => none
    | c :: r =>
      match phLoop ts with
      | none => none
      | some rest => some ((pyUpper c :: r.map pyLower) :: rest)

/-- `parse_handwriting` on the character list of the input: split, reject an
empty or delimiter-led input (`len(original_names) == 0 or
original_names[0] == ''`), run the token loop, join with single spaces. -/
def parseHWCore (l : List Char) : PHResult :=
  if (splitRuns l).headD [] = [] then .invalid
  else
    match phLoop (splitRuns l) with
    | none => .crash
    | some updated_names => .ok ⟨List.intercalate [' '] updated_names⟩

/-- `parse_handwriting(recipe_name)`. -/
def parse_handwriting (recipe_name : String) : PHResult :=
  parseHWCore recipe_name.data

/-! ### Concrete scenarios used by the claims -/

/-- A registry in which recipe `top` requires sub-recipe `sub` (which yields
2 `egg`) and then requires 1 `egg` directly. -/
def overlapCb : Cookbook :=
  [("egg", .ingredient "egg" 1), ("sub", .recipe "sub" [⟨"egg", 2⟩]),
   ("top", .recipe "top" [⟨"sub", 1⟩, ⟨"egg", 1⟩])]

def egg_req : ReqData := ⟨"ingredient", "egg", [], 5⟩

def flour_req : ReqData := ⟨"ingredient", "flour", [], 2⟩

def batter_req : ReqData := ⟨"recipe", "batter", [⟨"egg", 2⟩, ⟨"flour", 1⟩], 0⟩

def pancake_req : ReqData := ⟨"recipe", "pancake", [⟨"batter", 3⟩], 0⟩

def milk_req : ReqData := ⟨"ingredient", "milk", [], 1⟩

/-- The states reached by creating egg, flour, batter, pancake in order. -/
def st1 : ServerState := (create_entry_ep ⟨[], []⟩ egg_req).2

def st2 : ServerState := (create_entry_ep st1 flour_req).2

def st3 : ServerState := (create_entry_ep st2 batter_req).2

def st4 : ServerState := (create_entry_ep st3 pancake_req).2

/-- The state after additionally resolving `batter` once (populating the
resolution cache). -/
def st5 : ServerState := (summary_ep st3 "batter").2

/-- A registry in which resolving `pancake` first resolves `batter`
successfully and then hits an unknown item. -/
def partialCb : Cookbook :=
  [("egg", .ingredient "egg" 5), ("batter", .recipe "batter" [⟨"egg", 2⟩]),
   ("pancake", .recipe "pancake" [⟨"batter", 1⟩, ⟨"missing", 1⟩])]

/-! ### Invariants of the resolver -/

/-- Invariant of the abstracted recursive call used by `rsLoop`: the
in-progress path only grows, and cache entries for names on the current path
are untouched. -/
def RecurOK (recur : String → Path → Cache → RSResult × Path × Cache) : Prop :=
  ∀ n path cache,
    (∀ x ∈ path, x ∈ (recur n path cache).2.1) ∧
    (∀ m ∈ path, dget (recur n path cache).2.2 m = dget cache m)

/-- Cache monotonicity of the abstracted recursive call: existing cache
entries are never removed or changed (the source only ever adds entries
inside `recursive_summary`, and only for keys that were absent). -/
def RecurMono (recur : String → Path → Cache → RSResult × Path × Cache) : Prop :=
  ∀ n path cache k v, dget cache k = some v → dget (recur n path cache).2.2 k = some v

/-- A recipe that references a name absent from the registry. -/
def unknownCb : Cookbook := [("r", .recipe "r" [⟨"x", 1⟩])]

/-! ### Dependency cycles of arbitrary length -/

/-- A registry in which every name of the list is a recipe requiring one
unit of the next name, and the last one requires `first`: a dependency
cycle through the whole list. -/
def cycleChain (first : String) : List String → Cookbook
  | [] => []
  | [x] => [(x, .recipe x [⟨first, 1⟩])]
  | x :: y :: rest => (x, .recipe x [⟨y, 1⟩]) :: cycleChain first (y :: rest)

/-- The cycle registry over `L`, closing back to the head of `L`. -/
def cycleCb (L : List String) : Cookbook := cycleChain (L.headD "") L

/-- Lower-case ASCII letter, by code point. -/
def isLowerL (c : Char) : Prop := 97 ≤ c.toNat ∧ c.toNat ≤ 122

/-- Upper-case ASCII letter, by code point. -/
def isUpperL (c : Char) : Prop := 65 ≤ c.toNat ∧ c.toNat ≤ 90

/-- Any ASCII letter. -/
def pyLetter (c : Char) : Prop := isUpperL c ∨ isLowerL c

/-- A title-cased token: an upper-case letter followed by lower-case
letters. -/
def TitledTok : List Char → Prop
  | [] => False
  | u :: ls => isUpperL u ∧ ∀ c ∈ ls, isLowerL c

theorem dget_nil {α : Type} (key : String) : dget ([] : List (String × α)) key = none := rfl

theorem dget_dset_self {α : Type} (l : List (String × α)) (key : String) (val : α) :
    dget (dset l key val) key = some val := by
  induction l with
  | nil => simp [dget, dset]
  | cons hd tl ih =>
    obtain ⟨k, v⟩ := hd
    by_cases h : k = key
    · simp [dget, dset, h]
    · simp [dget, dset, h, ih]

theorem dget_dset_ne {α : Type} (l : List (String × α)) (key key' : String) (val : α)
    (h : key' ≠ key) : dget (dset l key val) key' = dget l key' := by
  induction l with
  | nil =>
    simp only [dget, dset]
    rw [if_neg (fun hc => h hc.symm)]
  | cons hd tl ih =>
    obtain ⟨k, v⟩ := hd
    by_cases hk : k = key
    · subst hk
      simp only [dset, if_pos rfl, dget]
      rw [if_neg (fun hc => h hc.symm), if_neg (fun hc => h hc.symm)]
    · simp only [dset, if_neg hk, dget]
      by_cases hk' : k = key'
      · rw [if_pos hk', if_pos hk']
      · rw [if_neg hk', if_neg hk', ih]

/-! ### Claim theorems -/

/-- C1: the claim says a required item that refers to an ingredient *adds*
its quantity to the accumulator entry.  The code instead assigns
(`ingredient_freq[item.name] = item.quantity`): in `overlapCb`, resolving
`top` first accumulates 2 `egg` from the sub-recipe `sub`, and the direct
required item of 1 `egg` then overwrites the entry, yielding 1 instead of
the 2 + 1 = 3 the claim requires. -/
theorem C1_ingredient_item_overwrites :
    (recursive_summary overlapCb 5 "top" [] []).1 = .ok [("egg", 1)] := by decide

/-- C2: the claim says the stored entry's name field equals the registry
key.  For recipes the code builds `Recipe(name=item_name, ...)` from the
loop variable, so creating recipe `pancake` with required item `egg` stores
under key `pancake` an entry whose name field is `egg`. -/
theorem C2_recipe_stored_with_item_name :
    (create_entry [] ⟨"recipe", "pancake", [⟨"egg", 2⟩], 0⟩).1 = .ok "recipe added" ∧
    (dget (create_entry [] ⟨"recipe", "pancake", [⟨"egg", 2⟩], 0⟩).2 "pancake").map entryName
      = some "egg" := by decide

/-- C3: the claim says a fresh name with an empty required-item sequence
succeeds.  With an empty sequence the loop never binds `item_name`, so
`Recipe(name=item_name, ...)` raises UnboundLocalError: the code crashes and
inserts nothing, instead of succeeding. -/
theorem C3_empty_recipe_crashes :
    create_entry [] ⟨"recipe", "a", [], 0⟩ = (.crash, []) := by decide

/-- C4: the claim says a token whose stripped form is empty is dropped, so
that "abc 123" yields "Abc" and the function never crashes.  The code runs
`new_name[0].upper()` unconditionally, so the stripped-empty token "123"
raises IndexError. -/
theorem C4_empty_token_crashes :
    parse_handwriting "abc 123" = .crash := by decide

/-- C5 counterexample: the claim says every successful `createEntry` leaves
the resolution cache empty.  Starting from the egg/flour/batter registry
with `batter` already resolved and cached, creating ingredient `milk`
succeeds yet the cache still holds the `batter` entry. -/
theorem C5_counterexample_cache_survives_create :
    (create_entry_ep st5 milk_req).1 = .ok "ingredient added" ∧
    (create_entry_ep st5 milk_req).2.cache = [("batter", [("egg", 2), ("flour", 1)])] ∧
    (create_entry_ep st5 milk_req).2.cache ≠ [] := by decide

/-- C5 amended: `create_entry` never touches the resolution cache (its body
never mentions `recipe_ingredient_cache`), and only `clear` empties it. -/
theorem C5_create_entry_preserves_cache (st : ServerState) (data : ReqData) :
    (create_entry_ep st data).2.cache = st.cache ∧ (clear_ep st).2.cache = [] :=
  ⟨rfl, rfl⟩

/-- C7: creating ingredient `egg` (cookTime 5), ingredient `flour`
(cookTime 2), recipe `batter` (2 egg, 1 flour) and recipe `pancake`
(3 batter) all succeed, and `getSummary("pancake")` returns cook time
3 * (2 * 5 + 1 * 2) = 36 with ingredient list egg 6, flour 3. -/
theorem C7_pancake_summary :
    (create_entry_ep ⟨[], []⟩ egg_req).1 = .ok "ingredient added" ∧
    (create_entry_ep st1 flour_req).1 = .ok "ingredient added" ∧
    (create_entry_ep st2 batter_req).1 = .ok "recipe added" ∧
    (create_entry_ep st3 pancake_req).1 = .ok "recipe added" ∧
    (summary_ep st4 "pancake").1 = .ok "pancake" 36 [("egg", 6), ("flour", 3)] := by
  refine ⟨by decide, by decide, by decide, by decide, by decide⟩

/-! ### Branch equations of the resolver -/

theorem rsLoop_nil (cb : Cookbook) (recur) (freq : Freq) (path : Path) (cache : Cache) :
    rsLoop cb recur [] freq path cache = (.ok freq, path, cache) := rfl

theorem rsLoop_unknown (cb : Cookbook) (recur) (item : RequiredItem)
    (rest : List RequiredItem) (freq : Freq) (path : Path) (cache : Cache)
    (h : dget cb item.name = none) :
    rsLoop cb recur (item :: rest) freq path cache =
      (.err "item does not exist in cookbook", path, cache) := by
  simp only [rsLoop]
  rw [h]

theorem rsLoop_ingredient (cb : Cookbook) (recur) (item : RequiredItem)
    (rest : List RequiredItem) (freq : Freq) (path : Path) (cache : Cache)
    (n : String) (ct : Int) (h : dget cb item.name = some (.ingredient n ct)) :
    rsLoop cb recur (item :: rest) freq path cache =
      rsLoop cb recur rest (dset freq item.name item.quantity) path cache := by
  simp only [rsLoop]
  rw [h]

theorem rsLoop_recipe (cb : Cookbook) (recur) (item : RequiredItem)
    (rest : List RequiredItem) (freq : Freq) (path : Path) (cache : Cache)
    (n : String) (its : List RequiredItem) (h : dget cb item.name = some (.recipe n its)) :
    rsLoop cb recur (item :: rest) freq path cache =
      (match recur item.name path cache with
       | (.ok child, path2, cache2) =>
         rsLoop cb recur rest (mergeChild freq item.quantity child) path2 cache2
       | (r, path2, cache2) => (r, path2, cache2)) := by
  simp only [rsLoop]
  rw [h]

theorem recursive_summary_cache_hit (cb : Cookbook) (fuel : Nat) (name : String)
    (path : Path) (cache : Cache) (freq : Freq) (hc : dget cache name = some freq) :
    recursive_summary cb (fuel + 1) name path cache = (.ok freq, path, cache) := by
  simp only [recursive_summary]
  rw [hc]

theorem recursive_summary_cycle (cb : Cookbook) (fuel : Nat) (name : String)
    (path : Path) (cache : Cache) (hc : dget cache name = none) (hp : name ∈ path) :
    recursive_summary cb (fuel + 1) name path cache =
      (.err "ciruclar dependencies of recipes", path, cache) := by
  simp only [recursive_summary]
  rw [hc, if_pos hp]

theorem recursive_summary_recipe (cb : Cookbook) (fuel : Nat) (name : String)
    (path : Path) (cache : Cache) (n : String) (items : List RequiredItem)
    (hc : dget cache name = none) (hp : name ∉ path)
    (hcb : dget cb name = some (.recipe n items)) :
    recursive_summary cb (fuel + 1) name path cache =
      (match rsLoop cb (recursive_summary cb fuel) items [] (name :: path) cache with
       | (.ok freq, path2, cache2) =>
         (.ok freq, path2.erase name, dset cache2 name freq)
       | (r, path2, cache2) => (r, path2, cache2)) := by
  simp only [recursive_summary]
  rw [hc, if_neg hp, hcb]

theorem rsLoop_recurOK (cb : Cookbook) (recur) (h : RecurOK recur)
    (items : List RequiredItem) :
    ∀ freq path cache,
      (∀ x ∈ path, x ∈ (rsLoop cb recur items freq path cache).2.1) ∧
      (∀ m ∈ path, dget (rsLoop cb recur items freq path cache).2.2 m = dget cache m) := by
  induction items with
  | nil => exact fun freq path cache => ⟨fun x hx => hx, fun m _ => rfl⟩
  | cons item rest ih =>
    intro freq path cache
    simp only [rsLoop]
    cases hcb : dget cb item.name with
    | none => exact ⟨fun x hx => hx, fun m _ => rfl⟩
    | some e =>
      cases e with
      | ingredient n ct => exact ih _ _ _
      | recipe n its =>
        rcases hr : recur item.name path cache with ⟨r, path2, cache2⟩
        have hrec := h item.name path cache
        rw [hr] at hrec
        cases r with
        | ok child =>
          have hrest := ih (mergeChild freq item.quantity child) path2 cache2
          exact ⟨fun x hx => hrest.1 x (hrec.1 x hx),
                 fun m hm => (hrest.2 m (hrec.1 m hm)).trans (hrec.2 m hm)⟩
        | err m2 => exact ⟨hrec.1, hrec.2⟩
        | crash => exact ⟨hrec.1, hrec.2⟩
        | nofuel => exact ⟨hrec.1, hrec.2⟩

theorem recursive_summary_crash (cb : Cookbook) (fuel : Nat) (name : String)
    (path : Path) (cache : Cache)
    (hc : dget cache name = none) (hp : name ∉ path)
    (hcb : ∀ n its, dget cb name ≠ some (.recipe n its)) :
    recursive_summary cb (fuel + 1) name path cache = (.crash, name :: path, cache) := by
  simp only [recursive_summary]
  rw [hc, if_neg hp]

theorem recursive_summary_recurOK (cb : Cookbook) :
    ∀ fuel, RecurOK (recursive_summary cb fuel) := by
  intro fuel
  induction fuel with
  | zero => exact fun n path cache => ⟨fun x hx => hx, fun m _ => rfl⟩
  | succ fuel ih =>
    intro n path cache
    cases hc : dget cache n with
    | some freq =>
      rw [recursive_summary_cache_hit cb fuel n path cache freq hc]
      exact ⟨fun x hx => hx, fun m _ => rfl⟩
    | none =>
      by_cases hp : n ∈ path
      · rw [recursive_summary_cycle cb fuel n path cache hc hp]
        exact ⟨fun x hx => hx, fun m _ => rfl⟩
      · rcases hcb : dget cb n with _ | ⟨_ | _⟩
        · rw [recursive_summary_crash cb fuel n path cache hc hp
            (fun a b hab => by rw [hcb] at hab; cases hab)]
          exact ⟨fun x hx => List.mem_cons_of_mem _ hx, fun m _ => rfl⟩
        · rw [recursive_summary_crash cb fuel n path cache hc hp
            (fun a b hab => by rw [hcb] at hab; cases hab)]
          exact ⟨fun x hx => List.mem_cons_of_mem _ hx, fun m _ => rfl⟩
        · rename_i nm items
          rw [recursive_summary_recipe cb fuel n path cache nm items hc hp hcb]
          have hl := rsLoop_recurOK cb (recursive_summary cb fuel) ih items
            [] (n :: path) cache
          rcases hres : rsLoop cb (recursive_summary cb fuel) items [] (n :: path) cache
            with ⟨r, path2, cache2⟩
          rw [hres] at hl
          cases r with
          | ok freq2 =>
            refine ⟨fun x hx => ?_, fun m hm => ?_⟩
            · have hxn : x ≠ n := fun he => hp (by rw [he] at hx; exact hx)
              exact (List.mem_erase_of_ne hxn).mpr (hl.1 x (List.mem_cons_of_mem _ hx))
            · have hmn : m ≠ n := fun he => hp (by rw [he] at hm; exact hm)
              rw [dget_dset_ne _ _ _ _ hmn]
              exact hl.2 m (List.mem_cons_of_mem _ hm)
          | err m2 => exact ⟨fun x hx => hl.1 x (.tail _ hx), fun m hm => hl.2 m (.tail _ hm)⟩
          | crash => exact ⟨fun x hx => hl.1 x (.tail _ hx), fun m hm => hl.2 m (.tail _ hm)⟩
          | nofuel => exact ⟨fun x hx => hl.1 x (.tail _ hx), fun m hm => hl.2 m (.tail _ hm)⟩

theorem rsLoop_recurMono (cb : Cookbook) (recur) (h : RecurMono recur)
    (items : List RequiredItem) :
    ∀ freq path cache k v, dget cache k = some v →
      dget (rsLoop cb recur items freq path cache).2.2 k = some v := by
  induction items with
  | nil => exact fun freq path cache k v hk => hk
  | cons item rest ih =>
    intro freq path cache k v hk
    cases hcb : dget cb item.name with
    | none => rw [rsLoop_unknown cb recur item rest freq path cache hcb]; exact hk
    | some e =>
      cases e with
      | ingredient n ct =>
        rw [rsLoop_ingredient cb recur item rest freq path cache n ct hcb]
        exact ih _ _ _ k v hk
      | recipe n its =>
        rw [rsLoop_recipe cb recur item rest freq path cache n its hcb]
        have hrec := h item.name path cache k v hk
        rcases hr : recur item.name path cache with ⟨r, path2, cache2⟩
        rw [hr] at hrec
        cases r with
        | ok child => exact ih _ _ _ k v hrec
        | err m2 => exact hrec
        | crash => exact hrec
        | nofuel => exact hrec

theorem recursive_summary_recurMono (cb : Cookbook) :
    ∀ fuel, RecurMono (recursive_summary cb fuel) := by
  intro fuel
  induction fuel with
  | zero => exact fun n path cache k v hk => hk
  | succ fuel ih =>
    intro n path cache k v hk
    cases hc : dget cache n with
    | some freq => rw [recursive_summary_cache_hit cb fuel n path cache freq hc]; exact hk
    | none =>
      by_cases hp : n ∈ path
      · rw [recursive_summary_cycle cb fuel n path cache hc hp]; exact hk
      · have hkn : k ≠ n := fun he => by rw [he, hc] at hk; cases hk
        rcases hcb : dget cb n with _ | ⟨_ | _⟩
        · rw [recursive_summary_crash cb fuel n path cache hc hp
            (fun a b hab => by rw [hcb] at hab; cases hab)]
          exact hk
        · rw [recursive_summary_crash cb fuel n path cache hc hp
            (fun a b hab => by rw [hcb] at hab; cases hab)]
          exact hk
        · rename_i nm items
          rw [recursive_summary_recipe cb fuel n path cache nm items hc hp hcb]
          have hl := rsLoop_recurMono cb (recursive_summary cb fuel) ih items
            [] (n :: path) cache k v hk
          rcases hres : rsLoop cb (recursive_summary cb fuel) items [] (n :: path) cache
            with ⟨r, path2, cache2⟩
          rw [hres] at hl
          cases r with
          | ok freq2 => rw [dget_dset_ne _ _ _ _ hkn]; exact hl
          | err m2 => exact hl
          | crash => exact hl
          | nofuel => exact hl

/-- C8: when the item loop reaches a required item whose name is absent from
the cookbook, it fails immediately with the unknown-item error, without
iterating further items and without touching path or cache; and whenever a
resolution of a not-yet-cached recipe fails with an error, the resulting
cache still has no entry for that recipe (no partial result is cached). -/
theorem C8_unknown_item_aborts :
    (∀ (cb : Cookbook) (recur) (item : RequiredItem) (rest : List RequiredItem)
       (freq : Freq) (path : Path) (cache : Cache),
       dget cb item.name = none →
       rsLoop cb recur (item :: rest) freq path cache =
         (.err "item does not exist in cookbook", path, cache)) ∧
    (∀ (cb : Cookbook) (fuel : Nat) (name : String) (path : Path) (cache : Cache)
       (msg : String) (path2 : Path) (cache2 : Cache),
       dget cache name = none →
       recursive_summary cb fuel name path cache = (.err msg, path2, cache2) →
       dget cache2 name = none) := by
  constructor
  · exact fun cb recur item rest freq path cache h =>
      rsLoop_unknown cb recur item rest freq path cache h
  · intro cb fuel name path cache msg path2 cache2 hnc h
    cases fuel with
    | zero =>
      simp only [recursive_summary, Prod.mk.injEq] at h
      cases h.1
    | succ fuel =>
      cases hc : dget cache name with
      | some freq => rw [hnc] at hc; cases hc
      | none =>
        by_cases hp : name ∈ path
        · rw [recursive_summary_cycle cb fuel name path cache hc hp] at h
          simp only [Prod.mk.injEq] at h
          rw [← h.2.2]
          exact hnc
        · rcases hcb : dget cb name with _ | ⟨_ | _⟩
          · rw [recursive_summary_crash cb fuel name path cache hc hp
              (fun a b hab => by rw [hcb] at hab; cases hab)] at h
            simp only [Prod.mk.injEq] at h
            cases h.1
          · rw [recursive_summary_crash cb fuel name path cache hc hp
              (fun a b hab => by rw [hcb] at hab; cases hab)] at h
            simp only [Prod.mk.injEq] at h
            cases h.1
          · rename_i nm items
            rw [recursive_summary_recipe cb fuel name path cache nm items hc hp hcb] at h
            have hl := (rsLoop_recurOK cb (recursive_summary cb fuel)
              (recursive_summary_recurOK cb fuel) items [] (name :: path) cache).2
              name (List.mem_cons_self name path)
            rcases hres : rsLoop cb (recursive_summary cb fuel) items [] (name :: path) cache
              with ⟨r, pathr, cacher⟩
            rw [hres] at hl h
            cases r with
            | ok freq2 =>
              simp only [Prod.mk.injEq] at h
              cases h.1
            | err m2 =>
              simp only [Prod.mk.injEq] at h
              rw [← h.2.2]
              exact hl.trans hnc
            | crash =>
              simp only [Prod.mk.injEq] at h
              cases h.1
            | nofuel =>
              simp only [Prod.mk.injEq] at h
              cases h.1

/-- C8 witness: in `unknownCb`, the loop on recipe `r`'s items aborts at the
unknown item `x`, and the failed resolution of `r` leaves no cache entry
for `r`. -/
theorem C8_witness :
    rsLoop unknownCb (recursive_summary unknownCb 4) [⟨"x", 1⟩] [] ["r"] [] =
      (.err "item does not exist in cookbook", ["r"], []) ∧
    dget (recursive_summary unknownCb 5 "r" [] []).2.2 "r" = none := by
  constructor
  · exact C8_unknown_item_aborts.1 unknownCb (recursive_summary unknownCb 4)
      ⟨"x", 1⟩ [] [] ["r"] [] (by decide)
  · exact C8_unknown_item_aborts.2 unknownCb 5 "r" [] []
      "item does not exist in cookbook" ["r"] [] (by decide) (by decide)

/-- C10: cache entries committed by successfully resolved sub-recipes
survive any enclosing failure (first conjunct: the cache only grows, under
any outcome); concretely, resolving `pancake` in `partialCb` fails with the
unknown-item error, yet `batter` — resolved successfully earlier in that
same attempt — stays cached, and a later resolution of `batter` succeeds
purely from the cache (even against an empty cookbook). -/
theorem C10_sub_recipes_stay_cached :
    (∀ (cb : Cookbook) (fuel : Nat) (name : String) (path : Path) (cache : Cache)
       (k : String) (v : Freq),
       dget cache k = some v →
       dget (recursive_summary cb fuel name path cache).2.2 k = some v) ∧
    (summary_ep ⟨partialCb, []⟩ "pancake").1 = .err "item does not exist in cookbook" ∧
    (summary_ep ⟨partialCb, []⟩ "pancake").2.cache = [("batter", [("egg", 2)])] ∧
    recursive_summary [] 1 "batter" [] [("batter", [("egg", 2)])] =
      (.ok [("egg", 2)], [], [("batter", [("egg", 2)])]) := by
  refine ⟨?_, by decide, by decide, by decide⟩
  exact fun cb fuel name path cache k v hk =>
    recursive_summary_recurMono cb fuel name path cache k v hk

/-- C10 witness: instantiating the cache-growth conjunct at a concrete
state: a cached entry for `batter` survives a crashing resolution of an
unknown name. -/
theorem C10_witness :
    dget (recursive_summary [] 3 "z" [] [("batter", [("egg", 2)])]).2.2 "batter" =
      some [("egg", 2)] :=
  C10_sub_recipes_stay_cached.1 [] 3 "z" [] [("batter", [("egg", 2)])]
    "batter" [("egg", 2)] (by decide)

theorem cycleChain_cons (f x : String) (l : List String) :
    cycleChain f (x :: l) = (x, .recipe x [⟨l.headD f, 1⟩]) :: cycleChain f l := by
  cases l <;> rfl

theorem dget_cycleChain (f : String) :
    ∀ (done : List String) (cur : String) (todo : List String),
      (done ++ cur :: todo).Nodup →
      dget (cycleChain f (done ++ cur :: todo)) cur =
        some (.recipe cur [⟨todo.headD f, 1⟩]) := by
  intro done
  induction done with
  | nil =>
    intro cur todo _
    rw [List.nil_append, cycleChain_cons]
    simp [dget]
  | cons d ds ih =>
    intro cur todo h
    rw [List.cons_append, cycleChain_cons]
    have hmem : cur ∈ ds ++ cur :: todo := List.mem_append_right ds (List.mem_cons_self cur todo)
    have hne : d ≠ cur := fun he => (List.nodup_cons.mp h).1 (he ▸ hmem)
    simp only [dget]
    rw [if_neg hne]
    exact ih cur todo (List.nodup_cons.mp h).2

theorem dget_cycleChain_mem (f : String) (M : List String) (hnd : M.Nodup)
    (x : String) (hx : x ∈ M) :
    ∃ its, dget (cycleChain f M) x = some (.recipe x its) := by
  obtain ⟨s, t, hst⟩ := List.append_of_mem hx
  subst hst
  exact ⟨_, dget_cycleChain f s x t hnd⟩

theorem cycle_split_not_mem {M done todo : List String} {cur : String}
    (hnd : M.Nodup) (hsplit : M = done ++ cur :: todo) : cur ∉ done := by
  rw [hsplit, List.nodup_append] at hnd
  intro hmem
  exact hnd.2.2 hmem (List.mem_cons_self cur todo)

theorem cycle_aux (f : String) (M : List String) (hnd : M.Nodup) :
    ∀ (todo done : List String) (cur : String) (fuel : Nat),
      M = done ++ cur :: todo →
      f = M.headD "" →
      todo.length + 2 ≤ fuel →
      ∃ p, recursive_summary (cycleChain f M) fuel cur done.reverse [] =
        (.err "ciruclar dependencies of recipes", p, []) := by
  intro todo
  induction todo with
  | nil =>
    intro done cur fuel hsplit hf hfuel
    obtain ⟨s, rfl⟩ : ∃ s, fuel = s + 1 := ⟨fuel - 1, by omega⟩
    obtain ⟨s2, rfl⟩ : ∃ s2, s = s2 + 1 := ⟨s - 1, by omega⟩
    have hnin : cur ∉ done.reverse := by
      rw [List.mem_reverse]
      exact cycle_split_not_mem hnd hsplit
    have hlook : dget (cycleChain f M) cur = some (.recipe cur [⟨f, 1⟩]) := by
      rw [hsplit]
      exact dget_cycleChain f done cur [] (hsplit ▸ hnd)
    rw [recursive_summary_recipe (cycleChain f M) (s2 + 1) cur done.reverse []
      cur [⟨f, 1⟩] (dget_nil cur) hnin hlook]
    cases done with
    | nil =>
      have hfc : f = cur := by rw [hsplit] at hf; exact hf
      subst hfc
      rw [rsLoop_recipe (cycleChain f M) (recursive_summary (cycleChain f M) (s2 + 1))
        ⟨f, 1⟩ [] [] (f :: List.reverse []) [] f [⟨f, 1⟩] hlook]
      rw [recursive_summary_cycle (cycleChain f M) s2 f (f :: List.reverse []) []
        (dget_nil f) (List.mem_cons_self f _)]
      exact ⟨_, rfl⟩
    | cons d ds =>
      have hfd : f = d := by rw [hsplit] at hf; simp at hf; exact hf
      subst hfd
      have hdM : f ∈ M := by
        rw [hsplit]
        exact List.mem_append_left _ (List.mem_cons_self f ds)
      obtain ⟨its, hlook2⟩ := dget_cycleChain_mem f M hnd f hdM
      rw [rsLoop_recipe (cycleChain f M) (recursive_summary (cycleChain f M) (s2 + 1))
        ⟨f, 1⟩ [] [] (cur :: (f :: ds).reverse) [] f its hlook2]
      rw [recursive_summary_cycle (cycleChain f M) s2 f (cur :: (f :: ds).reverse) []
        (dget_nil f)
        (List.mem_cons_of_mem cur (List.mem_reverse.mpr (List.mem_cons_self f ds)))]
      exact ⟨_, rfl⟩
  | cons t ts ih =>
    intro done cur fuel hsplit hf hfuel
    obtain ⟨s, rfl⟩ : ∃ s, fuel = s + 1 := ⟨fuel - 1, by omega⟩
    have hnin : cur ∉ done.reverse := by
      rw [List.mem_reverse]
      exact cycle_split_not_mem hnd hsplit
    have hlook : dget (cycleChain f M) cur = some (.recipe cur [⟨t, 1⟩]) := by
      rw [hsplit]
      exact dget_cycleChain f done cur (t :: ts) (hsplit ▸ hnd)
    rw [recursive_summary_recipe (cycleChain f M) s cur done.reverse []
      cur [⟨t, 1⟩] (dget_nil cur) hnin hlook]
    have hsplit2 : M = (done ++ [cur]) ++ t :: ts := by
      rw [hsplit]
      simp
    have hlook2 : dget (cycleChain f M) t = some (.recipe t [⟨ts.headD f, 1⟩]) := by
      rw [hsplit2]
      exact dget_cycleChain f (done ++ [cur]) t ts (hsplit2 ▸ hnd)
    rw [rsLoop_recipe (cycleChain f M) (recursive_summary (cycleChain f M) s)
      ⟨t, 1⟩ [] [] (cur :: done.reverse) [] t [⟨ts.headD f, 1⟩] hlook2]
    obtain ⟨p, hp⟩ := ih (done ++ [cur]) t s hsplit2 hf (by
      simp only [List.length_cons] at hfuel
      omega)
    have hrev : (done ++ [cur]).reverse = cur :: done.reverse := by simp
    rw [hrev] at hp
    rw [hp]
    exact ⟨p, rfl⟩

/-- C6: first conjunct — for every nonempty duplicate-free list of names
(so for every cycle length, 1 included), resolving the head of the cycle
registry `cycleCb L` fails with the circular-dependency error.  Second
conjunct — a name present in the resolution cache is answered from the
cache immediately, with path and cache untouched, whatever the current
path: a previously resolved, cached recipe is never reported as a cycle. -/
theorem C6_cycle_detection :
    (∀ (L : List String) (fuel : Nat), L ≠ [] → L.Nodup → L.length + 1 ≤ fuel →
       (recursive_summary (cycleCb L) fuel (L.headD "") [] []).1 =
         .err "ciruclar dependencies of recipes") ∧
    (∀ (cb : Cookbook) (fuel : Nat) (name : String) (path : Path) (cache : Cache)
       (freq : Freq), dget cache name = some freq →
       recursive_summary cb (fuel + 1) name path cache = (.ok freq, path, cache)) := by
  constructor
  · intro L fuel hne hnd hfuel
    cases L with
    | nil => exact absurd rfl hne
    | cons cur todo =>
      obtain ⟨p, hp⟩ := cycle_aux cur (cur :: todo) hnd todo [] cur fuel
        rfl rfl (by simp only [List.length_cons] at hfuel; omega)
      simp only [List.reverse_nil] at hp
      show (recursive_summary (cycleChain cur (cur :: todo)) fuel cur [] []).1 = _
      rw [hp]
  · exact fun cb fuel name path cache freq hc =>
      recursive_summary_cache_hit cb fuel name path cache freq hc

/-- C6 witness: the two-element cycle a-requires-b-requires-a errs as
circular, and a cache hit for `x` is returned as-is even with `x` on the
current path. -/
theorem C6_witness :
    (recursive_summary (cycleCb ["a", "b"]) 5 "a" [] []).1 =
      .err "ciruclar dependencies of recipes" ∧
    recursive_summary [] 1 "x" ["x", "p"] [("x", [("e", 2)])] =
      (.ok [("e", 2)], ["x", "p"], [("x", [("e", 2)])]) := by
  constructor
  · exact C6_cycle_detection.1 ["a", "b"] 5 (by decide) (by decide) (by decide)
  · exact C6_cycle_detection.2 [] 0 "x" ["x", "p"] [("x", [("e", 2)])] [("e", 2)] (by decide)

/-! ### Character-level facts for the normalizer -/

theorem char_toNat_ofNat {n : Nat} (h : n < 55296) : (Char.ofNat n).toNat = n := by
  unfold Char.ofNat
  rw [dif_pos (Or.inl h)]
  unfold Char.ofNatAux Char.toNat
  simp [UInt32.toNat, BitVec.toNat_ofNatLt]

theorem pyUpper_letter {c : Char} (h : pyLetter c) : isUpperL (pyUpper c) := by
  unfold pyLetter isUpperL isLowerL at h
  unfold pyUpper isUpperL
  by_cases hc : 97 ≤ c.toNat ∧ c.toNat ≤ 122
  · rw [if_pos (by simp only [Bool.and_eq_true, decide_eq_true_eq]; exact hc)]
    rw [char_toNat_ofNat (by omega)]
    omega
  · rw [if_neg (by simp only [Bool.and_eq_true, decide_eq_true_eq]; exact hc)]
    omega

theorem pyUpper_of_upper {c : Char} (h : isUpperL c) : pyUpper c = c := by
  unfold isUpperL at h
  unfold pyUpper
  rw [if_neg (by simp only [Bool.and_eq_true, decide_eq_true_eq]; omega)]

theorem pyLower_letter {c : Char} (h : pyLetter c) : isLowerL (pyLower c) := by
  unfold pyLetter isUpperL isLowerL at h
  unfold pyLower isLowerL
  by_cases hc : 65 ≤ c.toNat ∧ c.toNat ≤ 90
  · rw [if_pos (by simp only [Bool.and_eq_true, decide_eq_true_eq]; exact hc)]
    rw [char_toNat_ofNat (by omega)]
    omega
  · rw [if_neg (by simp only [Bool.and_eq_true, decide_eq_true_eq]; exact hc)]
    omega

theorem pyLower_of_lower {c : Char} (h : isLowerL c) : pyLower c = c := by
  unfold isLowerL at h
  unfold pyLower
  rw [if_neg (by simp only [Bool.and_eq_true, decide_eq_true_eq]; omega)]

theorem letter_isKeep {c : Char} (h : pyLetter c) : isKeep c = true := by
  unfold pyLetter isUpperL isLowerL at h
  unfold isKeep
  simp only [Bool.or_eq_true, Bool.and_eq_true, decide_eq_true_eq, beq_iff_eq]
  omega

theorem letter_not_delim {c : Char} (h : pyLetter c) : isDelim c = false := by
  unfold pyLetter isUpperL isLowerL at h
  unfold isDelim
  simp only [Bool.or_eq_false_iff, beq_eq_false_iff_ne, ne_eq]
  omega

theorem keep_not_delim_letter {c : Char} (hk : isKeep c = true) (hd : isDelim c = false) :
    pyLetter c := by
  unfold isKeep at hk
  unfold isDelim at hd
  unfold pyLetter isUpperL isLowerL
  simp only [Bool.or_eq_true, Bool.and_eq_true, decide_eq_true_eq, beq_iff_eq] at hk
  simp only [Bool.or_eq_false_iff, beq_eq_false_iff_ne, ne_eq] at hd
  omega

/-! ### Token-level facts for the normalizer -/

theorem srAux_nil (acc : List Char) : srAux [] acc = [acc.reverse] := rfl

theorem srAux_delim_last (c : Char) (acc : List Char) (h : isDelim c = true) :
    srAux [c] acc = [acc.reverse, []] := by
  simp [srAux, h]

theorem srAux_delim_delim (c d : Char) (rest' acc : List Char)
    (hc : isDelim c = true) (hd : isDelim d = true) :
    srAux (c :: d :: rest') acc = srAux (d :: rest') acc := by
  simp [srAux, hc, hd]

theorem srAux_delim_nondelim (c d : Char) (rest' acc : List Char)
    (hc : isDelim c = true) (hd : isDelim d = false) :
    srAux (c :: d :: rest') acc = acc.reverse :: srAux (d :: rest') [] := by
  simp [srAux, hc, hd]

theorem srAux_nondelim (c : Char) (rest acc : List Char) (hc : isDelim c = false) :
    srAux (c :: rest) acc = srAux rest (c :: acc) := by
  cases rest with
  | nil => simp [srAux, hc]
  | cons d rest' => simp [srAux, hc]

/-- Split tokens contain no delimiter characters. -/
theorem srAux_no_delim :
    ∀ (l acc : List Char), (∀ c ∈ acc, isDelim c = false) →
      ∀ t ∈ srAux l acc, ∀ c ∈ t, isDelim c = false := by
  intro l acc
  induction l, acc using srAux.induct with
  | case1 acc =>
    intro hacc t ht c hc
    rw [srAux_nil] at ht
    rw [List.mem_singleton] at ht
    subst ht
    exact hacc c (List.mem_reverse.mp hc)
  | case2 c acc hdel =>
    intro hacc t ht x hx
    rw [srAux_delim_last c acc hdel] at ht
    rcases List.mem_cons.mp ht with rfl | ht2
    · exact hacc x (List.mem_reverse.mp hx)
    · rw [List.mem_singleton] at ht2
      subst ht2
      cases hx
  | case3 c acc hdel d rest' hd ih =>
    intro hacc t ht x hx
    rw [srAux_delim_delim c d rest' acc hdel hd] at ht
    exact ih hacc t ht x hx
  | case4 c acc hdel d rest' hd ih =>
    intro hacc t ht x hx
    rw [srAux_delim_nondelim c d rest' acc hdel (Bool.not_eq_true _ ▸ eq_false_of_ne_true hd)] at ht
    rcases List.mem_cons.mp ht with rfl | ht
    · exact hacc x (List.mem_reverse.mp hx)
    · exact ih (fun y hy => by cases hy) t ht x hx
  | case5 c rest acc hc ih =>
    intro hacc t ht x hx
    rw [srAux_nondelim c rest acc (eq_false_of_ne_true hc)] at ht
    refine ih (fun y hy => ?_) t ht x hx
    rcases List.mem_cons.mp hy with rfl | hy
    · exact eq_false_of_ne_true hc
    · exact hacc y hy

/-- Consuming a delimiter-free prefix just accumulates it. -/
theorem srAux_append_nondelim :
    ∀ (t rest acc : List Char), (∀ c ∈ t, isDelim c = false) →
      srAux (t ++ rest) acc = srAux rest (t.reverse ++ acc) := by
  intro t
  induction t with
  | nil => intro rest acc _; simp
  | cons c cs ih =>
    intro rest acc h
    rw [List.cons_append, srAux_nondelim c (cs ++ rest) acc (h c (List.mem_cons_self c cs))]
    rw [ih rest (c :: acc) (fun y hy => h y (List.mem_cons_of_mem c hy))]
    simp

/-- A single nonempty delimiter-free token splits to itself. -/
theorem splitRuns_token (t : List Char)
    (h : ∀ c ∈ t, isDelim c = false) : splitRuns t = [t] := by
  have h2 := srAux_append_nondelim t [] [] h
  rw [List.append_nil] at h2
  unfold splitRuns
  rw [h2, srAux_nil]
  simp

theorem intercalate_singleton (x : List Char) : List.intercalate [' '] [x] = x := by
  simp [List.intercalate]

theorem intercalate_cons2 (x y : List Char) (zs : List (List Char)) :
    List.intercalate [' '] (x :: y :: zs) = x ++ ' ' :: List.intercalate [' '] (y :: zs) := by
  simp [List.intercalate, List.intersperse]

/-- Splitting the single-space join of nonempty delimiter-free tokens
recovers exactly the tokens. -/
theorem splitRuns_intercalate :
    ∀ ts : List (List Char), ts ≠ [] →
      (∀ t ∈ ts, t ≠ [] ∧ ∀ c ∈ t, isDelim c = false) →
      splitRuns (List.intercalate [' '] ts) = ts := by
  intro ts
  induction ts with
  | nil => intro h _; exact absurd rfl h
  | cons t ts' ih =>
    intro _ hall
    obtain ⟨-, hnd⟩ := hall t (List.mem_cons_self t ts')
    cases ts' with
    | nil => rw [intercalate_singleton]; exact splitRuns_token t hnd
    | cons t2 ts'' =>
      rw [intercalate_cons2]
      obtain ⟨hne2, hnd2⟩ := hall t2 (List.mem_cons_of_mem t (List.mem_cons_self t2 ts''))
      obtain ⟨c2, cs2, rfl⟩ : ∃ c2 cs2, t2 = c2 :: cs2 := by
        cases t2 with
        | nil => exact absurd rfl hne2
        | cons a b => exact ⟨a, b, rfl⟩
      obtain ⟨tail, htail⟩ :
          ∃ tail, List.intercalate [' '] ((c2 :: cs2) :: ts'') = c2 :: tail := by
        cases ts'' with
        | nil => exact ⟨cs2, by rw [intercalate_singleton]⟩
        | cons t3 ts3 => exact ⟨cs2 ++ ' ' :: List.intercalate [' '] (t3 :: ts3),
            by rw [intercalate_cons2]; rfl⟩
      unfold splitRuns
      rw [srAux_append_nondelim t (' ' :: List.intercalate [' '] ((c2 :: cs2) :: ts'')) [] hnd]
      rw [List.append_nil, htail]
      rw [srAux_delim_nondelim ' ' c2 tail t.reverse rfl
        (hnd2 c2 (List.mem_cons_self c2 cs2))]
      rw [← htail]
      have hrec := ih (by simp) (fun tk htk => hall tk (List.mem_cons_of_mem t htk))
      unfold splitRuns at hrec
      rw [hrec]
      simp

theorem titled_props {t : List Char} (h : TitledTok t) :
    t ≠ [] ∧ ∀ c ∈ t, pyLetter c := by
  cases t with
  | nil => exact h.elim
  | cons u ls =>
    refine ⟨by simp, fun c hc => ?_⟩
    rcases List.mem_cons.mp hc with rfl | hc
    · exact Or.inl h.1
    · exact Or.inr (h.2 c hc)

/-- Every token produced by a successful loop pass is title-cased. -/
theorem phLoop_titled :
    ∀ (names ts : List (List Char)), phLoop names = some ts →
      (∀ tok ∈ names, ∀ c ∈ tok, isDelim c = false) →
      ∀ t ∈ ts, TitledTok t := by
  intro names
  induction names with
  | nil =>
    intro ts h _ t ht
    cases h
    cases ht
  | cons tok toks ih =>
    intro ts h hnd t ht
    simp only [phLoop] at h
    cases hf : tok.filter isKeep with
    | nil => rw [hf] at h; cases h
    | cons c r =>
      rw [hf] at h
      cases hp : phLoop toks with
      | none => rw [hp] at h; cases h
      | some rest =>
        rw [hp] at h
        cases h
        rcases List.mem_cons.mp ht with rfl | htr
        · refine ⟨pyUpper_letter ?_, ?_⟩
          · have hcmem : c ∈ tok.filter isKeep := hf ▸ List.mem_cons_self c r
            have hcf := List.mem_filter.mp hcmem
            exact keep_not_delim_letter hcf.2 (hnd tok (List.mem_cons_self tok toks) c hcf.1)
          · intro x hx
            obtain ⟨y, hy, rfl⟩ := List.mem_map.mp hx
            have hymem : y ∈ tok.filter isKeep := hf ▸ List.mem_cons_of_mem c hy
            have hyf := List.mem_filter.mp hymem
            exact pyLower_letter
              (keep_not_delim_letter hyf.2 (hnd tok (List.mem_cons_self tok toks) y hyf.1))
        · exact ih rest hp (fun tk htk => hnd tk (List.mem_cons_of_mem tok htk)) t htr

/-- Title-cased tokens pass through the loop unchanged. -/
theorem phLoop_of_titled :
    ∀ ts : List (List Char), (∀ t ∈ ts, TitledTok t) → phLoop ts = some ts := by
  intro ts
  induction ts with
  | nil => intro _; rfl
  | cons t rest ih =>
    intro h
    cases t with
    | nil => exact (h [] (List.mem_cons_self [] rest)).elim
    | cons u ls =>
      have ht := h (u :: ls) (List.mem_cons_self (u :: ls) rest)
      have hfilter : (u :: ls).filter isKeep = u :: ls := by
        rw [List.filter_eq_self]
        intro a ha
        rcases List.mem_cons.mp ha with rfl | hls
        · exact letter_isKeep (Or.inl ht.1)
        · exact letter_isKeep (Or.inr (ht.2 a hls))
      have hmap : ls.map pyLower = ls := by
        have hcong : ∀ a ∈ ls, pyLower a = id a := fun a ha => pyLower_of_lower (ht.2 a ha)
        rw [List.map_congr_left hcong, List.map_id]
      simp only [phLoop, hfilter, ih (fun tk htk => h tk (List.mem_cons_of_mem (u :: ls) htk))]
      rw [pyUpper_of_upper ht.1, hmap]

theorem phLoop_cons_ne_nil (tok : List Char) (toks ts : List (List Char))
    (h : phLoop (tok :: toks) = some ts) : ts ≠ [] := by
  simp only [phLoop] at h
  cases hf : tok.filter isKeep with
  | nil => rw [hf] at h; cases h
  | cons c r =>
    rw [hf] at h
    cases hp : phLoop toks with
    | none => rw [hp] at h; cases h
    | some rest =>
      rw [hp] at h
      cases h
      simp

/-- C9: the normalizer is idempotent on its successful outputs — whenever
`parse_handwriting x` produces a display name, re-normalizing that display
name succeeds and reproduces it. -/
theorem C9_normalize_idempotent (x out : String)
    (h : parse_handwriting x = .ok out) : parse_handwriting out = .ok out := by
  unfold parse_handwriting parseHWCore at h
  by_cases hhead : (splitRuns x.data).headD [] = []
  · rw [if_pos hhead] at h
    cases h
  · rw [if_neg hhead] at h
    cases hp : phLoop (splitRuns x.data) with
    | none => rw [hp] at h; cases h
    | some ts =>
      rw [hp] at h
      have hout : out = ⟨List.intercalate [' '] ts⟩ := by cases h; rfl
      have hnd : ∀ tok ∈ splitRuns x.data, ∀ c ∈ tok, isDelim c = false :=
        srAux_no_delim x.data [] (fun c hc => by cases hc)
      have htit : ∀ t ∈ ts, TitledTok t := phLoop_titled (splitRuns x.data) ts hp hnd
      have hts_ne : ts ≠ [] := by
        cases hn : splitRuns x.data with
        | nil => rw [hn] at hhead; exact absurd rfl hhead
        | cons tok toks =>
          rw [hn] at hp
          exact phLoop_cons_ne_nil tok toks ts hp
      have hsr : splitRuns (List.intercalate [' '] ts) = ts :=
        splitRuns_intercalate ts hts_ne (fun t ht =>
          ⟨(titled_props (htit t ht)).1,
           fun c hc => letter_not_delim ((titled_props (htit t ht)).2 c hc)⟩)
      have hh2 : ts.headD [] ≠ [] := by
        cases ts with
        | nil => exact absurd rfl hts_ne
        | cons t1 ts' => exact (titled_props (htit t1 (List.mem_cons_self t1 ts'))).1
      rw [hout]
      unfold parse_handwriting parseHWCore
      show (if (splitRuns (List.intercalate [' '] ts)).headD [] = [] then PHResult.invalid
        else _) = _
      rw [hsr, if_neg hh2]
      show (match phLoop ts with
        | none => PHResult.crash
        | some updated_names => PHResult.ok ⟨List.intercalate [' '] updated_names⟩) = _
      rw [phLoop_of_titled ts htit]

/-- C9 witness: normalizing "hello world" gives "Hello World", and
re-normalizing "Hello World" reproduces it. -/
theorem C9_witness : parse_handwriting "Hello World" = .ok "Hello World" :=
  C9_normalize_idempotent "hello world" "Hello World" (by decide)

end DevDonalds
